import Mathlib

/-!
Verification of the depvis dependency-graph analyzer (stages 1-5).

Python strings are modelled as lists of characters (`PyStr`); Python dicts
(`dict` / `collections.defaultdict`) are modelled as association lists in
insertion order, which is faithful because Python dicts preserve insertion
order and the programs iterate over them in that order.  Fallible operations
(KeyError, ValueError from tuple unpacking, RuntimeError from mutating a dict
during iteration) are modelled with `Option` / `Except`.  Recursive Python
functions are modelled with explicit fuel; fuel exhaustion is `none` and the
chosen fuel bounds are proved or checked sufficient where a claim needs it.
-/

/-- Python strings, modelled as lists of characters. -/
abbrev PyStr := List Char

/-- The whitespace characters removed by Python `str.strip()` and used by
`str.split()` with no arguments (ASCII subset). -/
def pyIsSpace (c : Char) : Bool :=
  c = ' ' ∨ c = '\t' ∨ c = '\n' ∨ c = '\r' ∨ c = '\x0b' ∨ c = '\x0c'

/-- Python `str.strip()`: drop leading and trailing whitespace. -/
def pyStrip (s : PyStr) : PyStr :=
  ((s.dropWhile pyIsSpace).reverse.dropWhile pyIsSpace).reverse

/-- The lowercase-to-uppercase table for the ASCII letters. -/
def upperTable : List (Char × Char) :=
  [('a', 'A'), ('b', 'B'), ('c', 'C'), ('d', 'D'), ('e', 'E'), ('f', 'F'),
   ('g', 'G'), ('h', 'H'), ('i', 'I'), ('j', 'J'), ('k', 'K'), ('l', 'L'),
   ('m', 'M'), ('n', 'N'), ('o', 'O'), ('p', 'P'), ('q', 'Q'), ('r', 'R'),
   ('s', 'S'), ('t', 'T'), ('u', 'U'), ('v', 'V'), ('w', 'W'), ('x', 'X'),
   ('y', 'Y'), ('z', 'Z')]

/-- Association lookup over a character table. -/
def clookup : List (Char × Char) → Char → Option Char
  | [], _ => none
  | p :: ps, c => if p.1 = c then some p.2 else clookup ps c

/-- Python `str.upper()` on a single character (ASCII letters; other
characters are returned unchanged, which is faithful for ASCII input). -/
def pyUpperChar (c : Char) : Char := (clookup upperTable c).getD c

/-- Python `str.upper()` (ASCII model). -/
def pyUpper (s : PyStr) : PyStr := s.map pyUpperChar

/-- Python `str.split(sep)` with a single-character separator and no limit:
splits at every occurrence of `sep`, keeping empty fields. -/
def pySplit (sep : Char) : PyStr → List PyStr
  | [] => [[]]
  | c :: cs =>
    if c = sep then [] :: pySplit sep cs
    else
      match pySplit sep cs with
      | [] => [[c]]
      | p :: ps => (c :: p) :: ps

/-- Python `str.split(sep, 1)` restricted to the case `sep in s`: the pair of
the text before the first `sep` and the (unsplit) text after it. -/
def pyBreakFirst (sep : Char) : PyStr → PyStr × PyStr
  | [] => ([], [])
  | c :: cs =>
    if c = sep then ([], cs)
    else
      let p := pyBreakFirst sep cs
      (c :: p.1, p.2)

/-- Python `str.split()` with no arguments: split on whitespace runs,
discarding empty fields. -/
def pySplitWS (s : PyStr) : List PyStr :=
  (pySplit ' ' (s.map (fun c => if pyIsSpace c then ' ' else c))).filter
    (fun p => ¬ p = [])

/-- A dependency graph: a Python dict from package name to its ordered list of
dependency names, in insertion order. -/
abbrev Graph := List (PyStr × List PyStr)

/-- Dict lookup `g[k]` as an `Option` (first entry with the given key). -/
def glookup : Graph → PyStr → Option (List PyStr)
  | [], _ => none
  | p :: ps, k => if p.1 = k then some p.2 else glookup ps k

/-- Python `graph.get(node, [])`. -/
def lookupD (g : Graph) (k : PyStr) : List PyStr := (glookup g k).getD []

/-- Python `k in graph`. -/
def hasKey (g : Graph) (k : PyStr) : Bool := (glookup g k).isSome

/-- Python `graph[key] = value` on a plain dict: replace the value in place if
the key exists, otherwise append a new entry. -/
def upsert (g : Graph) (k : PyStr) (v : List PyStr) : Graph :=
  if hasKey g k then g.map (fun p => if p.1 = k then (p.1, v) else p)
  else g ++ [(k, v)]

/-- Python `graph[key].extend(vs)` on a `defaultdict(list)`: append to the
entry if the key exists, otherwise create the entry (at the end) holding
`vs`. -/
def extendAt (g : Graph) (k : PyStr) (vs : List PyStr) : Graph :=
  if hasKey g k then g.map (fun p => if p.1 = k then (p.1, p.2 ++ vs) else p)
  else g ++ [(k, vs)]

/-- One line of `load_graph` from `src/depvis_stage3.py` (lines 7-14):
strip the line; skip it when empty or without a colon; otherwise
`pkg, deps = line.split(":", 1)`, uppercase the stripped name, whitespace-split
the dependencies, strip-and-uppercase each
(`[d.strip().upper() for d in deps.split() if d.strip()]`), and
`graph[pkg].extend(deps_list)` on the defaultdict. -/
def loadLine3 (g : Graph) (rawLine : PyStr) : Graph :=
  if pyStrip rawLine = [] ∨ ¬ ':' ∈ pyStrip rawLine then g
  else
    extendAt g
      (pyUpper (pyStrip (pyBreakFirst ':' (pyStrip rawLine)).1))
      (((pySplitWS (pyBreakFirst ':' (pyStrip rawLine)).2).filter
          (fun d => ¬ pyStrip d = [])).map (fun d => pyUpper (pyStrip d)))

/-- `load_graph` from `src/depvis_stage3.py` (lines 4-15), applied to the
list of lines of the input file.  It cannot fail. -/
def load_graph3 (lines : List PyStr) : Graph :=
  lines.foldl loadLine3 []

/-- One line of `load_graph` from `src/depvis_stage4.py` (lines 5-12) and
`src/depvis_stage5.py` (lines 10-17): when the raw line contains a colon,
`key, values = line.strip().split(":")` — an unbounded split whose result is
unpacked into exactly two variables, so a line with two or more colons raises
`ValueError` (modelled as `none`); then
`graph[key.strip()] = values.strip().split() if values.strip() else []`. -/
def loadLine45 (g : Graph) (rawLine : PyStr) : Option Graph :=
  if ':' ∈ rawLine then
    match pySplit ':' (pyStrip rawLine) with
    | [key, values] =>
      let v := pyStrip values
      some (upsert g (pyStrip key) (if v = [] then [] else pySplitWS v))
    | _ => none
  else some g

/-- `load_graph` from `src/depvis_stage4.py` (lines 5-12) /
`src/depvis_stage5.py` (lines 10-17), applied to the list of lines of the
input file; `none` models an uncaught `ValueError`. -/
def load_graph45 (lines : List PyStr) : Option Graph :=
  lines.foldlM loadLine45 []

/-- `reversed_graph[dep].append(node)` from `reverse_graph`
(`src/depvis_stage4.py` line 19 / `src/depvis_stage5.py` line 24): indexing a
plain dict raises `KeyError` (modelled as `none`) when `dep` is not a key. -/
def addRevEdge (r : Graph) (dep node : PyStr) : Option Graph :=
  if hasKey r dep then
    some (r.map (fun p => if p.1 = dep then (p.1, p.2 ++ [node]) else p))
  else none

/-- The inner loop of `reverse_graph`: `for dep in deps:
reversed_graph[dep].append(node)`. -/
def addRevEdges (r : Graph) (node : PyStr) (deps : List PyStr) : Option Graph :=
  deps.foldlM (fun acc d => addRevEdge acc d node) r

/-- `reverse_graph` from `src/depvis_stage4.py` (lines 15-20) /
`src/depvis_stage5.py` (lines 20-25): start from
`{node: [] for node in graph}` and append `node` to `reversed_graph[dep]` for
every edge; `none` models the `KeyError` raised when some dependency target is
not a key of the input graph. -/
def reverse_graph (g : Graph) : Option Graph :=
  g.foldlM (fun acc p => addRevEdges acc p.1 p.2)
    (g.map (fun p => (p.1, ([] : List PyStr))))

/-- The `while queue` loop of `bfs_dependencies` from `src/depvis_stage4.py`
(lines 23-34) / `src/depvis_stage5.py` (lines 28-39): pop the front of the
queue; if unvisited, mark it visited, append it to the output and enqueue
`graph.get(node, [])`.  `fuel` bounds the number of loop iterations; `none`
models fuel exhaustion and is proved unreachable for `bfsFuel`. -/
def bfsLoop (g : Graph) : Nat → List PyStr → List PyStr → List PyStr →
    Option (List PyStr)
  | 0, _, _, _ => none
  | _ + 1, [], _, order => some order
  | fuel + 1, n :: rest, visited, order =>
    if n ∈ visited then bfsLoop g fuel rest visited order
    else bfsLoop g fuel (rest ++ lookupD g n) (n :: visited) (order ++ [n])

/-- The total number of dependency tokens in the graph. -/
def totalDeps (g : Graph) : Nat := (g.map (fun p => p.2.length)).sum

/-- The longest dependency list in the graph. -/
def maxDeps (g : Graph) : Nat := (g.map (fun p => p.2.length)).foldr max 0

/-- Fuel for `bfsLoop` that is proved sufficient below. -/
def bfsFuel (g : Graph) : Nat :=
  1 + (1 + g.length + totalDeps g) * (maxDeps g + 1) + 1

/-- `bfs_dependencies` from `src/depvis_stage4.py` (lines 23-34) /
`src/depvis_stage5.py` (lines 28-39).  (`bfs_dependencies` in
`src/depvis_stage3.py`, lines 18-33, differs only in filtering
already-visited nodes at enqueue time, which the dequeue-time check makes
redundant.) -/
def bfs_dependencies (g : Graph) (start : PyStr) : List PyStr :=
  (bfsLoop g (bfsFuel g) [start] [] []).getD []

/-- The state of `detect_cycles` from `src/depvis_stage3.py` (lines 36-56):
the `visited` and `stack` sets of the nested `visit`, plus the current
contents of the graph, which is a `defaultdict(list)` (built by `load_graph`,
line 5) and therefore gains an entry `node: []` whenever `graph[node]` is
evaluated at a missing key. -/
structure DetectSt where
  visited : List PyStr
  stack : List PyStr
  g : Graph
deriving DecidableEq, Repr

/-- `graph[node]` on the `defaultdict(list)`: return the entry, inserting
`node: []` (at the end, as dict insertion does) when it is missing. -/
def ddGetItem (st : DetectSt) (node : PyStr) : List PyStr × DetectSt :=
  match glookup st.g node with
  | some deps => (deps, st)
  | none => ([], { st with g := st.g ++ [(node, [])] })

mutual
/-- The nested `visit` of `detect_cycles` (`src/depvis_stage3.py` lines
40-51): return true on a node in `stack`, false on a visited node; otherwise
add the node to `visited` and `stack`, recurse over `graph[node]` (the
defaultdict access that may insert `node`), and remove the node from `stack`
on normal completion.  Fuel decreases on every call; `none` models fuel
exhaustion. -/
def visitF : Nat → PyStr → DetectSt → Option (Bool × DetectSt)
  | 0, _, _ => none
  | fuel + 1, node, st =>
    if node ∈ st.stack then some (true, st)
    else if node ∈ st.visited then some (false, st)
    else
      let st1 : DetectSt :=
        { st with visited := node :: st.visited, stack := node :: st.stack }
      let ds := ddGetItem st1 node
      match visitListF fuel ds.1 ds.2 with
      | none => none
      | some (true, st3) => some (true, st3)
      | some (false, st3) =>
        some (false, { st3 with stack := st3.stack.erase node })

/-- The `for dep in graph[node]` loop of `visit`: visit each dependency in
order, returning true as soon as one visit returns true. -/
def visitListF : Nat → List PyStr → DetectSt → Option (Bool × DetectSt)
  | 0, _, _ => none
  | _ + 1, [], st => some (false, st)
  | fuel + 1, d :: ds, st =>
    match visitF fuel d st with
    | none => none
    | some (true, st1) => some (true, st1)
    | some (false, st1) => visitListF fuel ds st1
end

/-- The `for node in graph` loop of `detect_cycles` (`src/depvis_stage3.py`
lines 53-55).  CPython's dict iterator compares the dict's current size with
its size at iterator creation on every `next()` call — including the final
one — and raises `RuntimeError: dictionary changed size during iteration`
when they differ; `Except.error ()` models that RuntimeError.  `roots` is the
key list of the graph when iteration starts and `n0` its size. -/
def rootsLoop (fuel : Nat) (n0 : Nat) :
    List PyStr → DetectSt → Option (Except Unit Bool) × DetectSt
  | [], st =>
    if st.g.length = n0 then (some (Except.ok false), st)
    else (some (Except.error ()), st)
  | k :: ks, st =>
    if st.g.length = n0 then
      match visitF fuel k st with
      | none => (none, st)
      | some (true, st1) => (some (Except.ok true), st1)
      | some (false, st1) => rootsLoop fuel n0 ks st1
    else (some (Except.error ()), st)

/-- Fuel for `visitF`, generously above the maximal recursion depth. -/
def detectFuel (g : Graph) : Nat :=
  2 * (g.length + totalDeps g) + totalDeps g + 4

/-- `detect_cycles` from `src/depvis_stage3.py` (lines 36-56), together with
the final contents of the (mutable) defaultdict graph.  The first component
is `some (Except.ok b)` for a normal boolean return, `some (Except.error ())`
for the `RuntimeError` raised when the defaultdict grew during the `for node
in graph` iteration, and `none` for fuel exhaustion (unreachable for the
inputs evaluated below). -/
def detect_cycles (g : Graph) : Option (Except Unit Bool) × Graph :=
  let r := rootsLoop (detectFuel g) g.length (g.map (fun p => p.1))
    ⟨[], [], g⟩
  (r.1, r.2.g)

/-- One printed line of `print_ascii_tree`: the indentation prefix, the node
name, and whether the cycle marker `" (циклическая зависимость)"` was
appended. -/
abbrev RLine := PyStr × PyStr × Bool

/-- Three spaces, the per-level indent of `print_ascii_tree`
(`src/depvis_stage5.py` line 63). -/
def indent3 : PyStr := [' ', ' ', ' ']

mutual
/-- `print_ascii_tree` from `src/depvis_stage5.py` (lines 54-63): if `start`
is already in the (single, shared) `visited` set, print it with the cycle
marker and return without recursing; otherwise print it, add it to `visited`,
and recurse into `graph.get(start, [])` with the prefix extended by three
spaces.  Returns the printed lines and the final visited set; fuel decreases
on every call and `none` models fuel exhaustion. -/
def renderF : Nat → Graph → PyStr → PyStr → List PyStr →
    Option (List RLine × List PyStr)
  | 0, _, _, _, _ => none
  | fuel + 1, g, start, pre, visited =>
    if start ∈ visited then some ([(pre, start, true)], visited)
    else
      match renderListF fuel g (lookupD g start) (pre ++ indent3)
          (start :: visited) with
      | none => none
      | some (ls, vis1) => some ((pre, start, false) :: ls, vis1)

/-- The `for dep in graph.get(start, [])` loop of `print_ascii_tree`. -/
def renderListF : Nat → Graph → List PyStr → PyStr → List PyStr →
    Option (List RLine × List PyStr)
  | 0, _, _, _, _ => none
  | _ + 1, _, [], _, visited => some ([], visited)
  | fuel + 1, g, d :: ds, pre, visited =>
    match renderF fuel g d pre visited with
    | none => none
    | some (l1, vis1) =>
      match renderListF fuel g ds pre vis1 with
      | none => none
      | some (l2, vis2) => some (l1 ++ l2, vis2)
end

/-- Fuel for `renderF`, proved sufficient below: two more than the recursion
budget `2 + |deps|` of every graph entry. -/
def renderFuel (g : Graph) : Nat :=
  2 + (g.map (fun p => 2 + p.2.length)).sum

/-- The full render `print_ascii_tree(graph, start)` as the list of printed
lines. -/
def renderTree (g : Graph) (start : PyStr) : List RLine :=
  ((renderF (renderFuel g) g start [] []).map Prod.fst).getD []

/-! ## Spec-side notions and basic lemmas -/

/-- The key list ("declared nodes") of a graph, in order. -/
def gkeys (g : Graph) : List PyStr := g.map (fun p => p.1)

/-- Every dependency target of the graph is itself a declared key
("no dangling targets"). -/
def allDeclared (g : Graph) : Prop :=
  ∀ p ∈ g, ∀ d ∈ p.2, hasKey g d = true

instance (g : Graph) : Decidable (allDeclared g) := by
  unfold allDeclared; infer_instance

/-- The number of colons in a line. -/
def colonCount (l : PyStr) : Nat := l.count ':'

/-- The ASCII uppercase letters. -/
def uppersList : List Char :=
  ['A', 'B', 'C', 'D', 'E', 'F', 'G', 'H', 'I', 'J', 'K', 'L', 'M',
   'N', 'O', 'P', 'Q', 'R', 'S', 'T', 'U', 'V', 'W', 'X', 'Y', 'Z']

/-- All keys and all dependency tokens of the graph are fixed points of
uppercasing, i.e. already written in their canonical uppercase form. -/
def upperFixed (g : Graph) : Prop :=
  ∀ p ∈ g, pyUpper p.1 = p.1 ∧ ∀ d ∈ p.2, pyUpper d = d

/-- The dependency list that ends up at key `d` after reversal: every declared
node `n`, in declaration order, repeated once per occurrence of `d` in `n`'s
dependency list. -/
def revList (gs : List (PyStr × List PyStr)) (d : PyStr) : List PyStr :=
  gs.flatMap (fun p => List.replicate (p.2.count d) p.1)

/-- The nodes printed without the cycle marker, in print order: exactly the
nodes the renderer adds to its visited set. -/
def newNodes (L : List RLine) : List PyStr :=
  (L.filter (fun t => t.2.2 = false)).map (fun t => t.2.1)

/-- Checker for the marker discipline: walking the printed lines while
replaying the visited set, every line carries the cycle marker exactly when
its node is already in the (single, shared) visited set, and only unmarked
lines add their node to the set. -/
def marksOK (vis : List PyStr) : List RLine → Bool
  | [] => true
  | t :: rest =>
    if t.2.1 ∈ vis then t.2.2 && marksOK vis rest
    else !t.2.2 && marksOK (t.2.1 :: vis) rest

/-- Remaining recursion budget of the renderer: each unvisited declared node
can still cost one call, one list step per dependency, and one terminal list
step. -/
def remBudget (g : Graph) (vis : List PyStr) : Nat :=
  2 + ((g.filter (fun p => ¬ p.1 ∈ vis)).map (fun p => 2 + p.2.length)).sum

/-- One dependency edge, with a node absent from the keys treated as having
an empty dependency list — exactly how `graph.get(node, [])` behaves. -/
def stepRel (g : Graph) (a b : PyStr) : Prop := b ∈ lookupD g a

/-- All dependency tokens of the graph, in order. -/
def allDeps (g : Graph) : List PyStr := g.flatMap (fun p => p.2)

/-- Every node the BFS queue can ever contain. -/
def univFin (g : Graph) (s : PyStr) : Finset PyStr :=
  insert s ((gkeys g).toFinset ∪ (allDeps g).toFinset)

/-- The `while queue` loop of `bfs_dependencies` from `src/depvis_stage3.py`
(lines 23-33): identical to the stage-4/5 loop except that, after marking
`node` visited, only dependencies not yet visited are enqueued
(`if dep not in visited: queue.append(dep)`). -/
def bfsLoop3 (g : Graph) : Nat → List PyStr → List PyStr → List PyStr →
    Option (List PyStr)
  | 0, _, _, _ => none
  | _ + 1, [], _, order => some order
  | fuel + 1, n :: rest, visited, order =>
    if n ∈ visited then bfsLoop3 g fuel rest visited order
    else bfsLoop3 g fuel
      (rest ++ (lookupD g n).filter (fun d => ¬ d ∈ n :: visited))
      (n :: visited) (order ++ [n])

/-- `bfs_dependencies` from `src/depvis_stage3.py` (lines 18-33). -/
def bfs_dependencies3 (g : Graph) (start : PyStr) : List PyStr :=
  (bfsLoop3 g (bfsFuel g) [start] [] []).getD []

theorem hasKey_iff_mem (g : Graph) (k : PyStr) :
    hasKey g k = true ↔ k ∈ gkeys g := by
  induction g with
  | nil => simp [hasKey, glookup, gkeys]
  | cons p ps ih =>
    by_cases h : p.1 = k
    · simp [hasKey, glookup, gkeys, h]
    · simp only [hasKey, glookup, if_neg h, gkeys, List.map_cons, List.mem_cons]
      rw [← gkeys, ← hasKey, ih]
      constructor
      · exact Or.inr
      · rintro (rfl | hk)
        · exact absurd rfl h
        · exact hk

theorem glookup_append (g1 g2 : Graph) (k : PyStr) :
    glookup (g1 ++ g2) k =
      match glookup g1 k with
      | some v => some v
      | none => glookup g2 k := by
  induction g1 with
  | nil => simp [glookup]
  | cons p ps ih =>
    by_cases h : p.1 = k <;> simp [glookup, h, ih]

theorem pySplit_ne_nil (sep : Char) (l : PyStr) : pySplit sep l ≠ [] := by
  induction l with
  | nil => simp [pySplit]
  | cons c cs _ =>
    simp only [pySplit]
    split
    · simp
    · cases h : pySplit sep cs <;> simp

theorem length_pySplit (sep : Char) (l : PyStr) :
    (pySplit sep l).length = l.count sep + 1 := by
  induction l with
  | nil => simp [pySplit]
  | cons c cs ih =>
    by_cases h : c = sep
    · subst h
      simp [pySplit, List.count_cons, ih]
    · simp only [pySplit, if_neg h]
      rcases hsp : pySplit sep cs with _ | ⟨p, ps⟩
      · exact absurd hsp (pySplit_ne_nil _ _)
      · rw [hsp] at ih
        simp only [List.length_cons] at ih ⊢
        rw [List.count_cons]
        simp [h, ← ih]

theorem count_takeWhile_eq_zero {p : Char → Bool} {c : Char}
    (hc : p c = false) (l : PyStr) : (l.takeWhile p).count c = 0 := by
  rw [List.count_eq_zero]
  intro hmem
  have := List.mem_takeWhile_imp hmem
  rw [hc] at this
  exact Bool.false_ne_true this

theorem count_dropWhile {p : Char → Bool} {c : Char}
    (hc : p c = false) (l : PyStr) : (l.dropWhile p).count c = l.count c := by
  conv_rhs => rw [← List.takeWhile_append_dropWhile (p := p) (l := l)]
  rw [List.count_append, count_takeWhile_eq_zero hc, Nat.zero_add]

theorem count_pyStrip {c : Char} (hc : pyIsSpace c = false) (l : PyStr) :
    (pyStrip l).count c = l.count c := by
  unfold pyStrip
  rw [List.count_reverse, count_dropWhile hc, List.count_reverse,
    count_dropWhile hc]

/-! ## Claims C10 and C4: loader failure modes -/

theorem loadLine45_eq_none_iff (g : Graph) (l : PyStr) :
    loadLine45 g l = none ↔ 2 ≤ colonCount l := by
  unfold loadLine45
  by_cases hm : ':' ∈ l
  · have hlen : (pySplit ':' (pyStrip l)).length = colonCount l + 1 := by
      rw [length_pySplit, count_pyStrip (by decide)]; rfl
    have hpos : 0 < colonCount l := List.count_pos_iff.mpr hm
    simp only [if_pos hm]
    rcases hsp : pySplit ':' (pyStrip l) with _ | ⟨a, _ | ⟨b, _ | ⟨c, rest⟩⟩⟩
    · exact absurd hsp (pySplit_ne_nil _ _)
    · rw [hsp] at hlen
      simp only [List.length_singleton] at hlen
      omega
    · rw [hsp] at hlen
      simp only [List.length_cons, List.length_nil] at hlen
      simp only [hsp]
      constructor
      · intro h; exact absurd h (by simp)
      · omega
    · rw [hsp] at hlen
      simp only [List.length_cons] at hlen
      simp only [hsp]
      constructor
      · intro _; omega
      · intro _; trivial
  · have h0 : colonCount l = 0 := List.count_eq_zero.mpr hm
    simp only [if_neg hm]
    constructor
    · intro h; exact absurd h (by simp)
    · omega

theorem load45_foldl_none_iff (lines : List PyStr) :
    ∀ g : Graph, lines.foldlM loadLine45 g = none ↔
      ∃ l ∈ lines, 2 ≤ colonCount l := by
  induction lines with
  | nil => intro g; simp [List.foldlM]
  | cons l ls ih =>
    intro g
    rw [List.foldlM_cons]
    cases hl : loadLine45 g l with
    | none =>
      simp only [hl, Option.bind_eq_bind, Option.none_bind]
      constructor
      · intro _
        exact ⟨l, List.mem_cons_self l ls, (loadLine45_eq_none_iff g l).mp hl⟩
      · intro _; trivial
    | some g1 =>
      simp only [hl, Option.bind_eq_bind, Option.some_bind]
      rw [ih g1]
      have hnot : ¬ 2 ≤ colonCount l := by
        intro h2
        rw [← loadLine45_eq_none_iff g l] at h2
        rw [hl] at h2
        exact Option.some_ne_none g1 h2
      constructor
      · rintro ⟨x, hx, h2⟩
        exact ⟨x, List.mem_cons_of_mem _ hx, h2⟩
      · rintro ⟨x, hx, h2⟩
        rcases List.mem_cons.mp hx with rfl | hx
        · exact absurd h2 hnot
        · exact ⟨x, hx, h2⟩

/-- Claim C10 (confirmed): in the stage-4 and stage-5 loaders, `load_graph`
raises an uncaught `ValueError` (modelled as `none`) exactly when some input
line contains two or more colon characters: the colon split is unbounded, so
such a line yields more than the two fields the assignment unpacks. -/
theorem claim10_two_colons_valueerror (lines : List PyStr) :
    load_graph45 lines = none ↔ ∃ l ∈ lines, 2 ≤ colonCount l :=
  load45_foldl_none_iff lines []

/-- Claim C4 (amended, see its theorem) -/
theorem load45_some_of_no_double_colon (lines : List PyStr)
    (h : ∀ l ∈ lines, colonCount l ≤ 1) :
    ∃ g, load_graph45 lines = some g := by
  cases hg : load_graph45 lines with
  | none =>
    rcases (load45_foldl_none_iff lines []).mp hg with ⟨l, hl, h2⟩
    exact absurd h2 (by have := h l hl; omega)
  | some g => exact ⟨g, rfl⟩

/-! ## Uppercasing lemmas (claim C5) -/

theorem clookup_mem {t : List (Char × Char)} {c u : Char}
    (h : clookup t c = some u) : (c, u) ∈ t := by
  induction t with
  | nil => cases h
  | cons p ps ih =>
    by_cases hp : p.1 = c
    · rw [clookup, if_pos hp] at h
      have hu : p.2 = u := Option.some_injective _ h
      cases p
      cases hp
      cases hu
      exact List.mem_cons_self _ _
    · rw [clookup, if_neg hp] at h
      exact List.mem_cons_of_mem _ (ih h)

theorem pyUpperChar_mem_or_eq (c : Char) :
    pyUpperChar c ∈ uppersList ∨ pyUpperChar c = c := by
  unfold pyUpperChar
  cases h : clookup upperTable c with
  | none => right; rfl
  | some u =>
    left
    have hm := clookup_mem h
    fin_cases hm <;> decide

theorem pyUpperChar_fixed_of_mem {c : Char} (h : c ∈ uppersList) :
    pyUpperChar c = c := by
  fin_cases h <;> rfl

theorem pyUpperChar_idem (c : Char) :
    pyUpperChar (pyUpperChar c) = pyUpperChar c := by
  rcases pyUpperChar_mem_or_eq c with h | h
  · exact pyUpperChar_fixed_of_mem h
  · rw [h]; exact h

theorem pyUpper_idem (s : PyStr) : pyUpper (pyUpper s) = pyUpper s := by
  unfold pyUpper
  rw [List.map_map]
  exact List.map_congr_left fun c _ => pyUpperChar_idem c

theorem upperFixed_extendAt {g : Graph} (hg : upperFixed g) {k : PyStr}
    (hk : pyUpper k = k) {vs : List PyStr} (hvs : ∀ d ∈ vs, pyUpper d = d) :
    upperFixed (extendAt g k vs) := by
  unfold extendAt
  split
  · intro p hp
    rcases List.mem_map.mp hp with ⟨q, hq, rfl⟩
    by_cases h : q.1 = k
    · simp only [if_pos h]
      refine ⟨(hg q hq).1, ?_⟩
      intro d hd
      rcases List.mem_append.mp hd with hd | hd
      · exact (hg q hq).2 d hd
      · exact hvs d hd
    · simp only [if_neg h]
      exact hg q hq
  · intro p hp
    rcases List.mem_append.mp hp with hp | hp
    · exact hg p hp
    · have := List.mem_singleton.mp hp
      subst this
      exact ⟨hk, hvs⟩

theorem upperFixed_loadLine3 {g : Graph} (hg : upperFixed g) (l : PyStr) :
    upperFixed (loadLine3 g l) := by
  unfold loadLine3
  split
  · exact hg
  · apply upperFixed_extendAt hg (pyUpper_idem _)
    intro d hd
    rcases List.mem_map.mp hd with ⟨x, _, rfl⟩
    exact pyUpper_idem _

theorem upperFixed_foldl3 (lines : List PyStr) :
    ∀ g : Graph, upperFixed g → upperFixed (lines.foldl loadLine3 g) := by
  induction lines with
  | nil => intro g hg; exact hg
  | cons l ls ih =>
    intro g hg
    exact ih _ (upperFixed_loadLine3 hg l)

/-! ## Key-set lemmas -/

theorem gkeys_map_modify (g : Graph) (k : PyStr)
    (f : PyStr × List PyStr → List PyStr) :
    gkeys (g.map fun p => if p.1 = k then (p.1, f p) else p) = gkeys g := by
  unfold gkeys
  rw [List.map_map]
  apply List.map_congr_left
  intro p _
  by_cases h : p.1 = k <;> simp [h]

theorem gkeys_append (g1 g2 : Graph) :
    gkeys (g1 ++ g2) = gkeys g1 ++ gkeys g2 := by
  unfold gkeys; rw [List.map_append]

theorem gkeys_extendAt (g : Graph) (k : PyStr) (vs : List PyStr) :
    gkeys (extendAt g k vs) =
      if hasKey g k then gkeys g else gkeys g ++ [k] := by
  unfold extendAt
  split
  · exact gkeys_map_modify g k _
  · rw [gkeys_append]; rfl

theorem gkeys_upsert (g : Graph) (k : PyStr) (vs : List PyStr) :
    gkeys (upsert g k vs) =
      if hasKey g k then gkeys g else gkeys g ++ [k] := by
  unfold upsert
  split
  · exact gkeys_map_modify g k _
  · rw [gkeys_append]; rfl

theorem hasKey_extendAt_self (g : Graph) (k : PyStr) (vs : List PyStr) :
    hasKey (extendAt g k vs) k = true := by
  rw [hasKey_iff_mem, gkeys_extendAt]
  split
  · rename_i h
    exact (hasKey_iff_mem g k).mp h
  · exact List.mem_append_right _ (List.mem_singleton_self k)

theorem hasKey_extendAt_mono {g : Graph} {k2 : PyStr}
    (h : hasKey g k2 = true) (k : PyStr) (vs : List PyStr) :
    hasKey (extendAt g k vs) k2 = true := by
  rw [hasKey_iff_mem, gkeys_extendAt]
  rw [hasKey_iff_mem] at h
  split
  · exact h
  · exact List.mem_append_left _ h

theorem hasKey_loadLine3_mono {g : Graph} {k : PyStr}
    (h : hasKey g k = true) (l : PyStr) : hasKey (loadLine3 g l) k = true := by
  unfold loadLine3
  split
  · exact h
  · exact hasKey_extendAt_mono h _ _

theorem hasKey_foldl3_mono (lines : List PyStr) :
    ∀ {g : Graph} {k : PyStr}, hasKey g k = true →
      hasKey (lines.foldl loadLine3 g) k = true := by
  induction lines with
  | nil => intro g k h; exact h
  | cons l ls ih =>
    intro g k h
    exact ih (hasKey_loadLine3_mono h l)

theorem hasKey_loadLine3_self (g : Graph) (l : PyStr)
    (h1 : ¬ pyStrip l = []) (h2 : ':' ∈ pyStrip l) :
    hasKey (loadLine3 g l)
      (pyUpper (pyStrip (pyBreakFirst ':' (pyStrip l)).1)) = true := by
  unfold loadLine3
  rw [if_neg (by simp [h1, h2])]
  exact hasKey_extendAt_self _ _ _

/-- Claim C5 (amended): only the stage-3 loader canonicalizes node names.
It uppercases every key and every dependency token at parse time (they are
all fixed points of uppercasing), and the key recorded for any processed
`NAME: ...` line is exactly the uppercase of the stripped name, so a lookup
by the uppercased spelling of a declared name resolves.  (The stage-4/5
loaders preserve case, so differently-cased lookups do not resolve there —
see the counterexample.) -/
theorem claim5_stage3_uppercases :
    (∀ lines : List PyStr, ∀ p ∈ load_graph3 lines,
      pyUpper p.1 = p.1 ∧ ∀ d ∈ p.2, pyUpper d = d) ∧
    (∀ lines : List PyStr, ∀ l ∈ lines, ¬ pyStrip l = [] → ':' ∈ pyStrip l →
      hasKey (load_graph3 lines)
        (pyUpper (pyStrip (pyBreakFirst ':' (pyStrip l)).1)) = true) := by
  constructor
  · intro lines
    exact upperFixed_foldl3 lines [] (by intro p hp; cases hp)
  · intro lines
    unfold load_graph3
    generalize ([] : Graph) = g0
    induction lines generalizing g0 with
    | nil => intro l hl; cases hl
    | cons a as ih =>
      intro l hl h1 h2
      rcases List.mem_cons.mp hl with rfl | hl
      · exact hasKey_foldl3_mono as (hasKey_loadLine3_self g0 l h1 h2)
      · exact ih (loadLine3 g0 a) l hl h1 h2

/-- Witness for C5: the line `a:b` declares key `A`, and the lookup by the
uppercased stripped name succeeds. -/
theorem claim5_witness :
    hasKey (load_graph3 [['a', ':', 'b']])
      (pyUpper (pyStrip (pyBreakFirst ':' (pyStrip ['a', ':', 'b'])).1)) =
      true :=
  claim5_stage3_uppercases.2 [['a', ':', 'b']] ['a', ':', 'b'] (by decide)
    (by decide) (by decide)

/-- Counterexample to C5 as stated: the stage-4/5 loader does not
canonicalize case — parsing the single line `a: b` yields the key `a`
unchanged, and a lookup by the differently-cased spelling `A` does not
resolve. -/
theorem claim5_counterexample :
    load_graph45 [['a', ':', ' ', 'b']] = some [(['a'], [['b']])] ∧
    glookup [(['a'], [['b']])] ['A'] = none := by
  constructor
  · rfl
  · rfl

/-- Claim C4 (amended): neither loader raises a ParseError for a line whose
name before the colon is empty — such a line is accepted and records an entry
under the empty-string key.  The stage-3 loader never fails on any input, and
the stage-4/5 loader fails only with the `ValueError` on lines containing two
or more colons: every input whose lines each contain at most one colon loads
successfully. -/
theorem claim4_no_parse_error :
    (∀ lines : List PyStr, (∀ l ∈ lines, colonCount l ≤ 1) →
      ∃ g, load_graph45 lines = some g) ∧
    load_graph45 [[':', ' ', 'B']] = some [([], [['B']])] ∧
    load_graph3 [[':', ' ', 'B']] = [([], [['B']])] :=
  ⟨load45_some_of_no_double_colon, by rfl, by rfl⟩

/-- Witness for C4: a concrete well-formed input loads successfully. -/
theorem claim4_witness :
    ∃ g, load_graph45 [['a', ':', ' ', 'b'], ['c', ':']] = some g :=
  claim4_no_parse_error.1 [['a', ':', ' ', 'b'], ['c', ':']] (by decide)

/-- Counterexample to C4 as stated: a line with a colon and an empty name
before it does not make loading fail — no ParseError exists anywhere in the
code; the loaders accept the line `: B` and record the entry under the
empty-string key. -/
theorem claim4_counterexample :
    load_graph45 [[':', ' ', 'B']] ≠ none ∧
    load_graph3 [[':', ' ', 'B']] = [([], [['B']])] := by
  constructor
  · intro h; cases h
  · rfl

/-! ## Reversal lemmas (claims C1 and C3) -/

theorem addRevEdge_none_iff (r : Graph) (d n : PyStr) :
    addRevEdge r d n = none ↔ hasKey r d = false := by
  unfold addRevEdge
  split
  · rename_i h
    simp [h]
  · rename_i h
    simp [Bool.not_eq_true] at h
    simp [h]

theorem glookup_modify_append (r : Graph) (d n k : PyStr) :
    glookup (r.map (fun p => if p.1 = d then (p.1, p.2 ++ [n]) else p)) k =
      if k = d then (glookup r k).map (fun ds => ds ++ [n])
      else glookup r k := by
  induction r with
  | nil =>
    simp only [List.map_nil, glookup]
    split <;> rfl
  | cons p ps ih =>
    simp only [List.map_cons]
    by_cases h1 : p.1 = d <;> by_cases h2 : p.1 = k
    · have hkd : k = d := by rw [← h2]; exact h1
      subst hkd
      simp [glookup, h1, h2]
    · have hkd : ¬ k = d := fun h => h2 (by rw [h1, ← h])
      have hdk : ¬ d = k := fun h => hkd h.symm
      simp [glookup, h1, h2, hkd, hdk, ih]
    · have hkd : ¬ k = d := fun h => h1 (by rw [h2, h])
      simp [glookup, h1, h2, hkd]
    · simp [glookup, h1, h2, ih]

theorem gkeys_addRevEdge {r r' : Graph} {d n : PyStr}
    (h : addRevEdge r d n = some r') : gkeys r' = gkeys r := by
  unfold addRevEdge at h
  split at h
  · cases h
    exact gkeys_map_modify r d _
  · cases h

theorem glookup_addRevEdge {r r' : Graph} {d n : PyStr}
    (h : addRevEdge r d n = some r') (k : PyStr) :
    glookup r' k =
      if k = d then (glookup r k).map (fun ds => ds ++ [n])
      else glookup r k := by
  unfold addRevEdge at h
  split at h
  · cases h
    exact glookup_modify_append r d n k
  · cases h

theorem hasKey_of_gkeys_eq {r r' : Graph} (h : gkeys r' = gkeys r)
    (k : PyStr) : hasKey r' k = hasKey r k := by
  by_cases hk : hasKey r k = true
  · rw [hk]
    rw [hasKey_iff_mem] at hk ⊢
    rw [h]
    exact hk
  · rw [Bool.not_eq_true] at hk
    rw [hk]
    rw [Bool.eq_false_iff]
    intro hcon
    rw [hasKey_iff_mem, h, ← hasKey_iff_mem] at hcon
    rw [hcon] at hk
    cases hk

theorem addRevEdges_some {deps : List PyStr} :
    ∀ {r : Graph} {n : PyStr}, (∀ d ∈ deps, hasKey r d = true) →
    ∃ r', addRevEdges r n deps = some r' ∧ gkeys r' = gkeys r ∧
      ∀ k, glookup r' k =
        (glookup r k).map (fun l => l ++ List.replicate (deps.count k) n) := by
  induction deps with
  | nil =>
    intro r n _
    refine ⟨r, rfl, rfl, ?_⟩
    intro k
    cases h : glookup r k <;> simp [List.count_nil]
  | cons d ds ih =>
    intro r n hdecl
    have hd : hasKey r d = true := hdecl d (List.mem_cons_self d ds)
    obtain ⟨v, hv⟩ := Option.isSome_iff_exists.mp hd
    have hedge : addRevEdge r d n =
        some (r.map (fun p => if p.1 = d then (p.1, p.2 ++ [n]) else p)) := by
      unfold addRevEdge
      rw [if_pos hd]
    have hkeys1 : gkeys (r.map (fun p => if p.1 = d then (p.1, p.2 ++ [n])
        else p)) = gkeys r := gkeys_map_modify r d _
    have hdecl1 : ∀ x ∈ ds, hasKey (r.map (fun p => if p.1 = d then
        (p.1, p.2 ++ [n]) else p)) x = true := by
      intro x hx
      rw [hasKey_of_gkeys_eq hkeys1]
      exact hdecl x (List.mem_cons_of_mem d hx)
    obtain ⟨r', hr', hk', hl'⟩ := ih hdecl1
    refine ⟨r', ?_, hk'.trans hkeys1, ?_⟩
    · unfold addRevEdges at hr' ⊢
      rw [List.foldlM_cons, hedge]
      exact hr'
    · intro k
      rw [hl' k, glookup_modify_append]
      by_cases hk : k = d
      · subst hk
        rw [if_pos rfl, List.count_cons_self]
        cases hg : glookup r k <;>
          simp [← List.replicate_succ, ← List.replicate_succ']
      · rw [if_neg hk, List.count_cons_of_ne hk]

theorem addRevEdges_none {deps : List PyStr} :
    ∀ {r : Graph} {n d : PyStr}, d ∈ deps → hasKey r d = false →
    addRevEdges r n deps = none := by
  induction deps with
  | nil => intro r n d hd; cases hd
  | cons a ds ih =>
    intro r n d hd hfail
    unfold addRevEdges
    rw [List.foldlM_cons]
    cases ha : addRevEdge r a n with
    | none => rfl
    | some r1 =>
      rcases List.mem_cons.mp hd with rfl | hd
      · rw [(addRevEdge_none_iff r d n).mpr hfail] at ha
        cases ha
      · have h1 : hasKey r1 d = false := by
          rw [hasKey_of_gkeys_eq (gkeys_addRevEdge ha)]
          exact hfail
        simpa using ih hd h1

theorem gkeys_addRevEdges {deps : List PyStr} :
    ∀ {r r' : Graph} {n : PyStr}, addRevEdges r n deps = some r' →
    gkeys r' = gkeys r := by
  induction deps with
  | nil =>
    intro r r' n h
    cases h
    rfl
  | cons d ds ih =>
    intro r r' n h
    unfold addRevEdges at h
    simp only [List.foldlM_cons] at h
    cases he : addRevEdge r d n with
    | none =>
      rw [he] at h
      cases h
    | some r1 =>
      rw [he] at h
      simp only [Option.bind_eq_bind, Option.some_bind] at h
      exact (ih h).trans (gkeys_addRevEdge he)

theorem revFold_some (gs : List (PyStr × List PyStr)) :
    ∀ r : Graph, (∀ p ∈ gs, ∀ d ∈ p.2, hasKey r d = true) →
    ∃ r', gs.foldlM (fun acc p => addRevEdges acc p.1 p.2) r = some r' ∧
      gkeys r' = gkeys r ∧
      ∀ k, glookup r' k = (glookup r k).map (fun l => l ++ revList gs k) := by
  induction gs with
  | nil =>
    intro r _
    refine ⟨r, rfl, rfl, ?_⟩
    intro k
    cases glookup r k <;> simp [revList]
  | cons p gs ih =>
    intro r hdecl
    obtain ⟨r1, hr1, hk1, hl1⟩ :=
      @addRevEdges_some p.2 r p.1
        (fun d hd => hdecl p (List.mem_cons_self p gs) d hd)
    have hdecl1 : ∀ q ∈ gs, ∀ d ∈ q.2, hasKey r1 d = true := by
      intro q hq d hd
      rw [hasKey_of_gkeys_eq hk1]
      exact hdecl q (List.mem_cons_of_mem p hq) d hd
    obtain ⟨r', hr', hk', hl'⟩ := ih r1 hdecl1
    refine ⟨r', ?_, (hk'.trans hk1 : _), ?_⟩
    · simp only [List.foldlM_cons, hr1, Option.bind_eq_bind, Option.some_bind]
      exact hr'
    · intro k
      rw [hl' k, hl1 k]
      cases glookup r k <;>
        simp [revList, List.flatMap_cons, List.append_assoc]

theorem revFold_none (gs : List (PyStr × List PyStr)) :
    ∀ r : Graph, (∃ p ∈ gs, ∃ d ∈ p.2, hasKey r d = false) →
    gs.foldlM (fun acc p => addRevEdges acc p.1 p.2) r = none := by
  induction gs with
  | nil =>
    intro r h
    rcases h with ⟨p, hp, _⟩
    cases hp
  | cons p gs ih =>
    intro r h
    rcases h with ⟨q, hq, d, hd, hfail⟩
    simp only [List.foldlM_cons]
    rcases List.mem_cons.mp hq with rfl | hq
    · rw [addRevEdges_none hd hfail]
      rfl
    · cases hr1 : addRevEdges r p.1 p.2 with
      | none => rfl
      | some r1 =>
        simp only [Option.bind_eq_bind, Option.some_bind]
        apply ih r1
        refine ⟨q, hq, d, hd, ?_⟩
        rw [hasKey_of_gkeys_eq (gkeys_addRevEdges hr1)]
        exact hfail

theorem gkeys_init (g : Graph) :
    gkeys (g.map (fun p => (p.1, ([] : List PyStr)))) = gkeys g := by
  unfold gkeys
  rw [List.map_map]
  rfl

theorem glookup_init (g : Graph) (k : PyStr) :
    glookup (g.map (fun p => (p.1, ([] : List PyStr)))) k =
      (glookup g k).map (fun _ => ([] : List PyStr)) := by
  induction g with
  | nil => rfl
  | cons p ps ih =>
    by_cases h : p.1 = k <;> simp [glookup, h, ih]

/-- Success and full characterization of `reverse_graph` when every
dependency target is declared. -/
theorem reverse_graph_some {g : Graph} (h : allDeclared g) :
    ∃ r, reverse_graph g = some r ∧ gkeys r = gkeys g ∧
      ∀ k, glookup r k = (glookup g k).map (fun _ => revList g k) := by
  have hdecl : ∀ p ∈ g, ∀ d ∈ p.2,
      hasKey (g.map (fun q => (q.1, ([] : List PyStr)))) d = true := by
    intro p hp d hd
    rw [hasKey_of_gkeys_eq (gkeys_init g)]
    exact h p hp d hd
  obtain ⟨r, hr, hk, hl⟩ := revFold_some g _ hdecl
  refine ⟨r, hr, hk.trans (gkeys_init g), ?_⟩
  intro k
  rw [hl k, glookup_init]
  cases glookup g k <;> simp

/-- `reverse_graph` raises KeyError exactly on a dangling target. -/
theorem reverse_graph_none {g : Graph} (h : ¬ allDeclared g) :
    reverse_graph g = none := by
  unfold allDeclared at h
  push_neg at h
  rcases h with ⟨p, hp, d, hd, hfail⟩
  apply revFold_none g _
  refine ⟨p, hp, d, hd, ?_⟩
  rw [hasKey_of_gkeys_eq (gkeys_init g)]
  exact Bool.eq_false_iff.mpr hfail

theorem mem_addRevEdge_vals {r r' : Graph} {d n : PyStr}
    (h : addRevEdge r d n = some r') {Q : PyStr → Prop}
    (hr : ∀ p ∈ r, ∀ x ∈ p.2, Q x) (hn : Q n) :
    ∀ p ∈ r', ∀ x ∈ p.2, Q x := by
  unfold addRevEdge at h
  split at h
  · cases h
    intro p hp x hx
    rcases List.mem_map.mp hp with ⟨q, hq, rfl⟩
    by_cases hqd : q.1 = d
    · rw [if_pos hqd] at hx
      rcases List.mem_append.mp hx with hx | hx
      · exact hr q hq x hx
      · rw [List.mem_singleton.mp hx]
        exact hn
    · rw [if_neg hqd] at hx
      exact hr q hq x hx
  · cases h

theorem mem_addRevEdges_vals {deps : List PyStr} :
    ∀ {r r' : Graph} {n : PyStr}, addRevEdges r n deps = some r' →
    ∀ {Q : PyStr → Prop}, (∀ p ∈ r, ∀ x ∈ p.2, Q x) → Q n →
    ∀ p ∈ r', ∀ x ∈ p.2, Q x := by
  induction deps with
  | nil =>
    intro r r' n h Q hr _
    cases h
    exact hr
  | cons d ds ih =>
    intro r r' n h Q hr hn
    unfold addRevEdges at h
    simp only [List.foldlM_cons] at h
    cases he : addRevEdge r d n with
    | none =>
      rw [he] at h
      cases h
    | some r1 =>
      rw [he] at h
      simp only [Option.bind_eq_bind, Option.some_bind] at h
      exact ih h (mem_addRevEdge_vals he hr hn) hn

theorem mem_revFold_vals (gs : List (PyStr × List PyStr)) :
    ∀ {r r' : Graph},
    gs.foldlM (fun acc p => addRevEdges acc p.1 p.2) r = some r' →
    ∀ {Q : PyStr → Prop}, (∀ p ∈ r, ∀ x ∈ p.2, Q x) → (∀ p ∈ gs, Q p.1) →
    ∀ p ∈ r', ∀ x ∈ p.2, Q x := by
  induction gs with
  | nil =>
    intro r r' h Q hr _
    cases h
    exact hr
  | cons p gs ih =>
    intro r r' h Q hr hg
    simp only [List.foldlM_cons] at h
    cases he : addRevEdges r p.1 p.2 with
    | none =>
      rw [he] at h
      cases h
    | some r1 =>
      rw [he] at h
      simp only [Option.bind_eq_bind, Option.some_bind] at h
      exact ih h
        (mem_addRevEdges_vals he hr (hg p (List.mem_cons_self p gs)))
        (fun q hq => hg q (List.mem_cons_of_mem p hq))

/-- Every dependency list in a successfully reversed graph holds only
declared keys, so the reversed graph is itself fully declared. -/
theorem reverse_allDeclared {g r : Graph} (hr : reverse_graph g = some r)
    (hkeys : gkeys r = gkeys g) : allDeclared r := by
  intro p hp d hd
  rw [hasKey_iff_mem, hkeys]
  have hinit : ∀ q ∈ g.map (fun p => (p.1, ([] : List PyStr))),
      ∀ x ∈ q.2, x ∈ gkeys g := by
    intro q hq x hx
    rcases List.mem_map.mp hq with ⟨s, _, rfl⟩
    cases hx
  exact mem_revFold_vals g hr hinit
    (fun q hq => List.mem_map_of_mem _ hq) p hp d hd

/-- Claim C1 (amended): `reverse(G)` succeeds exactly when every dependency
target of G is a declared key; on success it contains exactly one key per
declared key of G, in the same order, and the list at key `d` holds each
declared node `n` once per occurrence of `d` in `G[n]`, in declaration order.
When some dependency target is not declared, `reverse_graph` raises a
`KeyError` — the dangling edge is NOT silently dropped, the whole reversal
fails. -/
theorem claim1_reverse_characterization (g : Graph) :
    (allDeclared g → ∃ r, reverse_graph g = some r ∧ gkeys r = gkeys g ∧
      ∀ d, glookup r d = (glookup g d).map (fun _ => revList g d)) ∧
    (¬ allDeclared g → reverse_graph g = none) :=
  ⟨fun h => reverse_graph_some h, fun h => reverse_graph_none h⟩

/-- Witness for C1 on the fully declared graph `{A: [B], B: []}`. -/
theorem claim1_witness :
    ∃ r, reverse_graph [(['A'], [['B']]), (['B'], [])] = some r ∧
      gkeys r = gkeys [(['A'], [['B']]), (['B'], [])] ∧
      ∀ d, glookup r d = (glookup [(['A'], [['B']]), (['B'], [])] d).map
        (fun _ => revList [(['A'], [['B']]), (['B'], [])] d) :=
  (claim1_reverse_characterization [(['A'], [['B']]), (['B'], [])]).1
    (by decide)

/-- Counterexample to C1 as stated: for `{A: [B]}` with `B` undeclared the
claim predicts that the edge is silently dropped with no error raised,
yielding `{A: []}`; the code instead raises a `KeyError` (modelled as
`none`). -/
theorem claim1_counterexample :
    reverse_graph [(['A'], [['B']])] = none ∧
    reverse_graph [(['A'], [['B']])] ≠ some [(['A'], [])] := by
  constructor
  · rfl
  · intro h
    cases h

/-- Claim C3 (amended): one direction of the claimed equivalence survives:
when some dependency target of G is undeclared, the round trip fails — but by
raising `KeyError` during the first reversal, not by dropping edges.  The
other direction fails: even when every dependency target is declared, the
round trip succeeds and restores the key set, but need not equal G because
dependency lists can come back permuted (see the counterexample). -/
theorem claim3_roundtrip (g : Graph) :
    (¬ allDeclared g → (reverse_graph g).bind reverse_graph = none) ∧
    (allDeclared g → ∃ g2, (reverse_graph g).bind reverse_graph = some g2 ∧
      gkeys g2 = gkeys g) := by
  constructor
  · intro h
    rw [reverse_graph_none h]
    rfl
  · intro h
    obtain ⟨r, hr, hk, _⟩ := reverse_graph_some h
    obtain ⟨g2, hg2, hk2, _⟩ := reverse_graph_some (reverse_allDeclared hr hk)
    refine ⟨g2, ?_, hk2.trans hk⟩
    rw [hr]
    exact hg2

/-- Witness for C3 on the dangling graph `{A: [B]}` and the declared graph
`{A: [B], B: []}`. -/
theorem claim3_witness :
    (reverse_graph [(['A'], [['B']])]).bind reverse_graph = none ∧
    ∃ g2, (reverse_graph [(['A'], [['B']]), (['B'], [])]).bind reverse_graph =
        some g2 ∧ gkeys g2 = gkeys [(['A'], [['B']]), (['B'], [])] :=
  ⟨(claim3_roundtrip [(['A'], [['B']])]).1 (by decide),
   (claim3_roundtrip [(['A'], [['B']]), (['B'], [])]).2 (by decide)⟩

/-- Counterexample to C3 as stated: in `{A: [C, B], B: [], C: []}` every
dependency target is declared, yet `reverse(reverse(G)) ≠ G` — the round trip
returns `{A: [B, C], B: [], C: []}`, permuting A's dependency list. -/
theorem claim3_counterexample :
    allDeclared [(['A'], [['C'], ['B']]), (['B'], []), (['C'], [])] ∧
    (reverse_graph [(['A'], [['C'], ['B']]), (['B'], []), (['C'], [])]).bind
        reverse_graph =
      some [(['A'], [['B'], ['C']]), (['B'], []), (['C'], [])] ∧
    ¬ (reverse_graph
          [(['A'], [['C'], ['B']]), (['B'], []), (['C'], [])]).bind
        reverse_graph =
      some [(['A'], [['C'], ['B']]), (['B'], []), (['C'], [])] := by
  refine ⟨by decide, by rfl, ?_⟩
  intro h
  rw [(by rfl : (reverse_graph
      [(['A'], [['C'], ['B']]), (['B'], []), (['C'], [])]).bind reverse_graph =
    some [(['A'], [['B'], ['C']]), (['B'], []), (['C'], [])])] at h
  cases h

/-! ## Cycle-detector lemmas (claims C2 and C7) -/

theorem glookup_mem {g : Graph} {k : PyStr} {v : List PyStr}
    (h : glookup g k = some v) : (k, v) ∈ g := by
  induction g with
  | nil => cases h
  | cons p ps ih =>
    by_cases hp : p.1 = k
    · rw [glookup, if_pos hp] at h
      have hv : p.2 = v := Option.some_injective _ h
      cases p
      cases hp
      cases hv
      exact List.mem_cons_self _ _
    · rw [glookup, if_neg hp] at h
      exact List.mem_cons_of_mem _ (ih h)

theorem ddGetItem_of_hasKey {st : DetectSt} {node : PyStr}
    (h : hasKey st.g node = true) :
    ddGetItem st node = (lookupD st.g node, st) := by
  unfold ddGetItem
  obtain ⟨v, hv⟩ := Option.isSome_iff_exists.mp h
  rw [hv]
  unfold lookupD
  rw [hv]
  rfl

theorem allDeclared_deps {g : Graph} (hg : allDeclared g) {node : PyStr}
    (h : hasKey g node = true) : ∀ d ∈ lookupD g node, hasKey g d = true := by
  obtain ⟨v, hv⟩ := Option.isSome_iff_exists.mp h
  intro d hd
  unfold lookupD at hd
  rw [hv] at hd
  exact hg (node, v) (glookup_mem hv) d hd

/-- When every dependency target is declared, `visit` never touches the
defaultdict at a missing key, so the graph component of the state is
preserved. -/
theorem visit_preserves_graph (fuel : Nat) :
    (∀ node st, allDeclared st.g → hasKey st.g node = true →
      ∀ r, visitF fuel node st = some r → r.2.g = st.g) ∧
    (∀ ds st, allDeclared st.g → (∀ d ∈ ds, hasKey st.g d = true) →
      ∀ r, visitListF fuel ds st = some r → r.2.g = st.g) := by
  induction fuel with
  | zero =>
    constructor
    · intro node st _ _ r h
      cases h
    · intro ds st _ _ r h
      cases h
  | succ f ih =>
    constructor
    · intro node st hdecl hkey r h
      simp only [visitF] at h
      by_cases h1 : node ∈ st.stack
      · rw [if_pos h1] at h
        cases h
        rfl
      · rw [if_neg h1] at h
        by_cases h2 : node ∈ st.visited
        · rw [if_pos h2] at h
          cases h
          rfl
        · rw [if_neg h2] at h
          have hkey1 : hasKey ({ st with visited := node :: st.visited, stack := node :: st.stack } : DetectSt).g node = true := hkey
          rw [ddGetItem_of_hasKey hkey1] at h
          dsimp only at h
          cases hv : visitListF f (lookupD st.g node)
              (DetectSt.mk (node :: st.visited) (node :: st.stack) st.g) with
          | none =>
            rw [hv] at h
            cases h
          | some s =>
            have hg1 : s.2.g = st.g :=
              ih.2 (lookupD st.g node)
                (DetectSt.mk (node :: st.visited) (node :: st.stack) st.g)
                hdecl (allDeclared_deps hdecl hkey) s hv
            rw [hv] at h
            rcases s with ⟨b, st3⟩
            cases b
            · cases h
              exact hg1
            · cases h
              exact hg1
    · intro ds st hdecl hds r h
      cases ds with
      | nil =>
        simp only [visitListF] at h
        cases h
        rfl
      | cons d rest =>
        simp only [visitListF] at h
        cases hv : visitF f d st with
        | none =>
          rw [hv] at h
          cases h
        | some s =>
          have hg1 : s.2.g = st.g :=
            ih.1 d st hdecl (hds d (List.mem_cons_self d rest)) s hv
          rw [hv] at h
          rcases s with ⟨b, st1⟩
          cases b
          · have hdecl1 : allDeclared st1.g := by rw [hg1]; exact hdecl
            have hds1 : ∀ x ∈ rest, hasKey st1.g x = true := by
              intro x hx
              rw [hg1]
              exact hds x (List.mem_cons_of_mem d hx)
            exact (ih.2 rest st1 hdecl1 hds1 r h).trans hg1
          · cases h
            exact hg1

theorem rootsLoop_preserves_graph (fuel n0 : Nat) (ks : List PyStr) :
    ∀ st : DetectSt, allDeclared st.g → (∀ k ∈ ks, hasKey st.g k = true) →
    ((rootsLoop fuel n0 ks st).2 : DetectSt).g = st.g := by
  induction ks with
  | nil =>
    intro st _ _
    unfold rootsLoop
    split <;> rfl
  | cons k ks ih =>
    intro st hdecl hks
    unfold rootsLoop
    split
    · cases hv : visitF fuel k st with
      | none => rfl
      | some s =>
        have hg1 : s.2.g = st.g :=
          (visit_preserves_graph fuel).1 k st hdecl
            (hks k (List.mem_cons_self k ks)) s hv
        rcases s with ⟨b, st1⟩
        cases b
        · have hdecl1 : allDeclared st1.g := by rw [hg1]; exact hdecl
          have hks1 : ∀ x ∈ ks, hasKey st1.g x = true := by
            intro x hx
            rw [hg1]
            exact hks x (List.mem_cons_of_mem k hx)
          exact (ih st1 hdecl1 hks1).trans hg1
        · exact hg1
    · rfl

/-- Claim C7 (amended): reversal, breadth-first traversal and tree rendering
only read the graph (their embeddings are pure functions of it); cycle
detection, however, runs on the stage-3 `defaultdict` graph and `graph[node]`
inserts every visited undeclared dependency target as a new key with an empty
list.  When every dependency target of G is declared, cycle detection leaves
the graph unchanged; with a dangling target it can grow the key set (see the
counterexample). -/
theorem claim7_detect_preserves_graph (g : Graph) (h : allDeclared g) :
    (detect_cycles g).2 = g := by
  unfold detect_cycles
  simp only
  apply rootsLoop_preserves_graph
  · exact h
  · intro k hk
    rw [hasKey_iff_mem]
    exact hk

/-- Witness for C7 on the fully declared cyclic graph `{A: [B], B: [A]}`. -/
theorem claim7_witness :
    (detect_cycles [(['A'], [['B']]), (['B'], [['A']])]).2 =
      [(['A'], [['B']]), (['B'], [['A']])] :=
  claim7_detect_preserves_graph [(['A'], [['B']]), (['B'], [['A']])]
    (by decide)

/-- Counterexample to C7 as stated: running cycle detection on `{A: [B]}`
(B undeclared) mutates the graph — the defaultdict lookup `graph[B]` inserts
the key `B`, so the key set afterwards is `[A, B]`, not `[A]`. -/
theorem claim7_counterexample :
    (detect_cycles [(['A'], [['B']])]).2 = [(['A'], [['B']]), (['B'], [])] ∧
    (detect_cycles [(['A'], [['B']])]).2 ≠ [(['A'], [['B']])] := by
  constructor
  · rfl
  · intro h
    have h2 : (detect_cycles [(['A'], [['B']])]).2 =
        [(['A'], [['B']]), (['B'], [])] := by rfl
    rw [h] at h2
    cases h2

/-- Claim C2 (code bug): on the acyclic graph `{A: [B]}` with `B` undeclared
— the spec's own §8 scenario, which asserts `hasCycle = false` — the stage-3
`detect_cycles` does not return false: visiting `B` evaluates `graph[B]` on
the `defaultdict`, inserting the key `B` while the `for node in graph` loop
is iterating, so the next `next()` call raises `RuntimeError: dictionary
changed size during iteration` (modelled as `Except.error ()`); the final
graph also shows the inserted key. -/
theorem claim2_failing_input :
    detect_cycles [(['A'], [['B']])] =
      (some (Except.error ()), [(['A'], [['B']]), (['B'], [])]) := by
  rfl

/-! ## Tree-renderer lemmas (claims C8 and C9) -/

theorem newNodes_append (a b : List RLine) :
    newNodes (a ++ b) = newNodes a ++ newNodes b := by
  unfold newNodes
  rw [List.filter_append, List.map_append]

theorem marksOK_append (a : List RLine) :
    ∀ (b : List RLine) (vis : List PyStr),
    marksOK vis (a ++ b) =
      (marksOK vis a && marksOK ((newNodes a).reverse ++ vis) b) := by
  induction a with
  | nil =>
    intro b vis
    simp [marksOK, newNodes]
  | cons t rest ih =>
    intro b vis
    by_cases hv : t.2.1 ∈ vis
    · simp only [List.cons_append, marksOK, if_pos hv]
      cases hm : t.2.2
      · simp
      · simp only [Bool.true_and]
        rw [List.append_eq, ih]
        have : newNodes (t :: rest) = newNodes rest := by
          unfold newNodes
          rw [List.filter_cons_of_neg (by simp [hm])]
        rw [this]
    · simp only [List.cons_append, marksOK, if_neg hv]
      cases hm : t.2.2
      · simp only [Bool.not_false, Bool.true_and]
        rw [List.append_eq, ih]
        have : newNodes (t :: rest) = t.2.1 :: newNodes rest := by
          unfold newNodes
          rw [List.filter_cons_of_pos (by simp [hm]), List.map_cons]
        rw [this, List.reverse_cons, List.append_assoc]
        rfl
      · simp

/-- The marker discipline of `print_ascii_tree`: every produced line is
marked exactly when its node is already in the shared visited set, and the
final visited set extends the initial one by the unmarked nodes. -/
theorem render_marks (fuel : Nat) :
    (∀ g s pre vis L vis', renderF fuel g s pre vis = some (L, vis') →
      marksOK vis L = true ∧ vis' = (newNodes L).reverse ++ vis) ∧
    (∀ g ds pre vis L vis', renderListF fuel g ds pre vis = some (L, vis') →
      marksOK vis L = true ∧ vis' = (newNodes L).reverse ++ vis) := by
  induction fuel with
  | zero =>
    constructor
    · intro g s pre vis L vis' h
      cases h
    · intro g ds pre vis L vis' h
      cases h
  | succ f ih =>
    constructor
    · intro g s pre vis L vis' h
      simp only [renderF] at h
      by_cases hv : s ∈ vis
      · rw [if_pos hv] at h
        cases h
        constructor
        · simp [marksOK, hv]
        · simp [newNodes]
      · rw [if_neg hv] at h
        cases hc : renderListF f g (lookupD g s) (pre ++ indent3)
            (s :: vis) with
        | none =>
          rw [hc] at h
          cases h
        | some q =>
          rw [hc] at h
          rcases q with ⟨ls, vis1⟩
          dsimp only at h
          rw [Option.some.injEq, Prod.mk.injEq] at h
          obtain ⟨hL, hV⟩ := h
          subst hL
          subst hV
          obtain ⟨hm, hvv⟩ :=
            ih.2 g (lookupD g s) (pre ++ indent3) (s :: vis) ls vis1 hc
          constructor
          · simp only [marksOK, if_neg hv]
            simpa using hm
          · rw [hvv]
            have : newNodes ((pre, s, false) :: ls) = s :: newNodes ls := by
              unfold newNodes
              rw [List.filter_cons_of_pos (by simp), List.map_cons]
            rw [this, List.reverse_cons, List.append_assoc]
            rfl
    · intro g ds pre vis L vis' h
      cases ds with
      | nil =>
        simp only [renderListF] at h
        cases h
        exact ⟨rfl, by simp [newNodes]⟩
      | cons d rest =>
        simp only [renderListF] at h
        cases h1 : renderF f g d pre vis with
        | none =>
          rw [h1] at h
          cases h
        | some q1 =>
          rw [h1] at h
          rcases q1 with ⟨l1, v1⟩
          dsimp only at h
          cases h2 : renderListF f g rest pre v1 with
          | none =>
            rw [h2] at h
            cases h
          | some q2 =>
            rw [h2] at h
            rcases q2 with ⟨l2, v2⟩
            dsimp only at h
            rw [Option.some.injEq, Prod.mk.injEq] at h
            obtain ⟨hL, hV⟩ := h
            subst hL
            subst hV
            obtain ⟨hm1, hv1⟩ := ih.1 g d pre vis l1 v1 h1
            obtain ⟨hm2, hv2⟩ := ih.2 g rest pre v1 l2 v2 h2
            constructor
            · rw [marksOK_append, hm1, ← hv1, hm2]
              rfl
            · rw [hv2, hv1, newNodes_append, List.reverse_append,
                List.append_assoc]

theorem remBudget_ge_two (g : Graph) (vis : List PyStr) :
    2 ≤ remBudget g vis :=
  Nat.le_add_right 2 _

theorem filterSum_mono (g : Graph) {vis vis' : List PyStr}
    (h : ∀ x ∈ vis, x ∈ vis') :
    ((g.filter (fun p => ¬ p.1 ∈ vis')).map (fun p => 2 + p.2.length)).sum ≤
      ((g.filter (fun p => ¬ p.1 ∈ vis)).map (fun p => 2 + p.2.length)).sum := by
  induction g with
  | nil => simp
  | cons p ps ih =>
    by_cases h1 : p.1 ∈ vis'
    · rw [List.filter_cons_of_neg (by simp [h1])]
      by_cases h2 : p.1 ∈ vis
      · rw [List.filter_cons_of_neg (by simp [h2])]
        exact ih
      · rw [List.filter_cons_of_pos (by simp [h2])]
        simp only [List.map_cons, List.sum_cons]
        omega
    · have h2 : ¬ p.1 ∈ vis := fun hx => h1 (h _ hx)
      rw [List.filter_cons_of_pos (by simp [h1]),
        List.filter_cons_of_pos (by simp [h2])]
      simp only [List.map_cons, List.sum_cons]
      omega

theorem remBudget_mono {vis vis' : List PyStr} (h : ∀ x ∈ vis, x ∈ vis')
    (g : Graph) : remBudget g vis' ≤ remBudget g vis := by
  unfold remBudget
  have := filterSum_mono g h
  omega

theorem filterSum_insert (g : Graph) (k : PyStr) (vis : List PyStr)
    (hk : hasKey g k = true) (hnv : ¬ k ∈ vis) :
    ((g.filter (fun p => ¬ p.1 ∈ (k :: vis))).map
        (fun p => 2 + p.2.length)).sum + (2 + (lookupD g k).length) ≤
      ((g.filter (fun p => ¬ p.1 ∈ vis)).map (fun p => 2 + p.2.length)).sum := by
  induction g with
  | nil =>
    unfold hasKey glookup at hk
    cases hk
  | cons p ps ih =>
    by_cases h1 : p.1 = k
    · have hl : lookupD (p :: ps) k = p.2 := by
        unfold lookupD
        rw [glookup, if_pos h1]
        rfl
      rw [hl]
      rw [List.filter_cons_of_neg (by simp [h1])]
      rw [List.filter_cons_of_pos (by simp [h1, hnv])]
      simp only [List.map_cons, List.sum_cons]
      have hmono := @filterSum_mono ps vis (k :: vis)
        (fun x hx => List.mem_cons_of_mem k hx)
      omega
    · have hl : lookupD (p :: ps) k = lookupD ps k := by
        unfold lookupD
        rw [glookup, if_neg h1]
      have hk2 : hasKey ps k = true := by
        unfold hasKey at hk ⊢
        rw [glookup, if_neg h1] at hk
        exact hk
      rw [hl]
      by_cases h2 : p.1 ∈ vis
      · rw [List.filter_cons_of_neg (by simp [h2]),
          List.filter_cons_of_neg (by simp [h2])]
        exact ih hk2
      · rw [List.filter_cons_of_pos (by simp [h1, h2]),
          List.filter_cons_of_pos (by simp [h2])]
        simp only [List.map_cons, List.sum_cons]
        have := ih hk2
        omega

theorem remBudget_insert {g : Graph} {k : PyStr} (hk : hasKey g k = true)
    {vis : List PyStr} (hnv : ¬ k ∈ vis) :
    remBudget g (k :: vis) + (2 + (lookupD g k).length) ≤ remBudget g vis := by
  unfold remBudget
  have := filterSum_insert g k vis hk hnv
  omega

theorem hasKey_of_lookupD_ne {g : Graph} {s : PyStr}
    (h : ¬ lookupD g s = []) : hasKey g s = true := by
  unfold lookupD at h
  unfold hasKey
  cases hg : glookup g s with
  | none =>
    rw [hg] at h
    simp at h
  | some v => rfl

/-- The fuel bound `remBudget` makes the renderer total: the recursion always
completes, even on cyclic graphs, because any re-encountered node stops the
walk on that branch. -/
theorem render_total (fuel : Nat) :
    (∀ g s pre vis, remBudget g vis ≤ fuel →
      (renderF fuel g s pre vis).isSome = true) ∧
    (∀ g ds pre vis, remBudget g vis + ds.length ≤ fuel →
      (renderListF fuel g ds pre vis).isSome = true) := by
  induction fuel with
  | zero =>
    constructor
    · intro g s pre vis h
      have := remBudget_ge_two g vis
      omega
    · intro g ds pre vis h
      have := remBudget_ge_two g vis
      omega
  | succ f ih =>
    constructor
    · intro g s pre vis hle
      simp only [renderF]
      by_cases hv : s ∈ vis
      · rw [if_pos hv]
        rfl
      · rw [if_neg hv]
        by_cases hd : lookupD g s = []
        · rw [hd]
          have hf : 1 ≤ f := by
            have := remBudget_ge_two g vis
            omega
          cases f with
          | zero => omega
          | succ f2 => simp [renderListF]
        · have hk : hasKey g s = true := hasKey_of_lookupD_ne hd
          have hbud := remBudget_insert hk hv
          have hreq : remBudget g (s :: vis) + (lookupD g s).length ≤ f := by
            omega
          have hsome := ih.2 g (lookupD g s) (pre ++ indent3) (s :: vis) hreq
          cases hres : renderListF f g (lookupD g s) (pre ++ indent3)
              (s :: vis) with
          | none =>
            rw [hres] at hsome
            cases hsome
          | some q =>
            rcases q with ⟨ls, v1⟩
            rfl
    · intro g ds pre vis hle
      cases ds with
      | nil => simp [renderListF]
      | cons d rest =>
        simp only [renderListF]
        have h1 : remBudget g vis ≤ f := by
          simp only [List.length_cons] at hle
          omega
        have hs1 := ih.1 g d pre vis h1
        cases hres : renderF f g d pre vis with
        | none =>
          rw [hres] at hs1
          cases hs1
        | some q1 =>
          rcases q1 with ⟨l1, v1⟩
          dsimp only
          have hsub : ∀ x ∈ vis, x ∈ v1 := by
            obtain ⟨_, hvv⟩ := (render_marks f).1 g d pre vis l1 v1 hres
            intro x hx
            rw [hvv]
            exact List.mem_append_right _ hx
          have hmono := remBudget_mono hsub g
          have h2 : remBudget g v1 + rest.length ≤ f := by
            simp only [List.length_cons] at hle
            omega
          have hs2 := ih.2 g rest pre v1 h2
          cases hres2 : renderListF f g rest pre v1 with
          | none =>
            rw [hres2] at hs2
            cases hs2
          | some q2 =>
            rcases q2 with ⟨l2, v2⟩
            rfl

theorem remBudget_nil (g : Graph) : remBudget g [] = renderFuel g := by
  unfold remBudget renderFuel
  simp

/-- Claim C9 (amended): `renderTree` terminates for every finite graph and
every start node, including graphs with genuine directed cycles, because
reaching a previously visited node halts recursion on that branch — with the
explicit fuel `renderFuel g` the recursion always completes.  However, it
emits one cycle marker per re-encounter of a previously seen node, which can
be more than one marker for the same node in a render call (see the
counterexample). -/
theorem claim9_render_terminates (g : Graph) (s : PyStr) :
    (renderF (renderFuel g) g s [] []).isSome = true := by
  apply (render_total (renderFuel g)).1
  rw [remBudget_nil]

/-- Counterexample to C9 as stated: rendering
`{A: [B, C, D], B: [X], C: [X], D: [X]}` from `A` prints the cycle marker for
the previously seen node `X` twice in the same render call. -/
theorem claim9_counterexample :
    ((renderTree [(['A'], [['B'], ['C'], ['D']]), (['B'], [['X']]),
          (['C'], [['X']]), (['D'], [['X']])] ['A']).filter
        (fun t => t.2.2 && (t.2.1 == ['X']))).length = 2 := by
  rfl

/-- Claim C8 (confirmed): `print_ascii_tree` keeps one visited set shared
across the entire render: replaying the printed lines, a line carries the
cycle marker exactly when its node was already emitted unmarked earlier in
the same render (or was in the initial set), and marked lines do not extend
the set (no recursion into them).  Consequently a node reachable by two
independent non-cyclic paths is still flagged on its second occurrence, as
the concrete diamond `{A: [B, C], B: [D], C: [D], D: []}` shows: `D` is
printed with the marker exactly once, at its second occurrence. -/
theorem claim8_shared_visited_markers :
    (∀ (g : Graph) (s : PyStr), marksOK [] (renderTree g s) = true) ∧
    ((renderTree [(['A'], [['B'], ['C']]), (['B'], [['D']]),
          (['C'], [['D']]), (['D'], [])] ['A']).filter
        (fun t => t.2.2 && (t.2.1 == ['D']))).length = 1 := by
  constructor
  · intro g s
    unfold renderTree
    cases hres : renderF (renderFuel g) g s [] [] with
    | none => rfl
    | some q =>
      rcases q with ⟨L, vis'⟩
      obtain ⟨hm, _⟩ := (render_marks (renderFuel g)).1 g s [] [] L vis' hres
      simpa using hm
  · rfl

/-! ## Breadth-first traversal (claim C6) -/

theorem length_allDeps (g : Graph) : (allDeps g).length = totalDeps g := by
  unfold allDeps totalDeps
  induction g with
  | nil => rfl
  | cons p ps ih => simp [List.flatMap_cons, ih]

theorem le_foldr_max {l : List Nat} {a : Nat} (h : a ∈ l) :
    a ≤ l.foldr max 0 := by
  induction l with
  | nil => cases h
  | cons b bs ih =>
    rcases List.mem_cons.mp h with rfl | h
    · exact Nat.le_max_left _ _
    · exact Nat.le_trans (ih h) (Nat.le_max_right _ _)

theorem lookupD_length_le (g : Graph) (n : PyStr) :
    (lookupD g n).length ≤ maxDeps g := by
  unfold lookupD
  cases hg : glookup g n with
  | none => exact Nat.zero_le _
  | some v =>
    have hv : (n, v) ∈ g := glookup_mem hg
    exact le_foldr_max (List.mem_map_of_mem (fun p => p.2.length) hv)

theorem lookupD_subset_univ {g : Graph} {n x : PyStr} (s : PyStr)
    (h : x ∈ lookupD g n) : x ∈ univFin g s := by
  unfold lookupD at h
  cases hg : glookup g n with
  | none =>
    rw [hg] at h
    cases h
  | some v =>
    rw [hg] at h
    have hv : (n, v) ∈ g := glookup_mem hg
    unfold univFin
    apply Finset.mem_insert_of_mem
    apply Finset.mem_union_right
    rw [List.mem_toFinset]
    unfold allDeps
    exact List.mem_flatMap.mpr ⟨(n, v), hv, h⟩

/-- Fuel sufficiency for the BFS loop. -/
theorem bfsLoop_total (g : Graph) (s : PyStr) :
    ∀ (fuel : Nat) (q vis order : List PyStr),
    (∀ x ∈ q, x ∈ univFin g s) →
    (univFin g s \ vis.toFinset).card * (maxDeps g + 1) + q.length < fuel →
    (bfsLoop g fuel q vis order).isSome = true := by
  intro fuel
  induction fuel with
  | zero =>
    intro q vis order _ hm
    omega
  | succ f ih =>
    intro q vis order hq hm
    cases q with
    | nil => rfl
    | cons n rest =>
      by_cases hn : n ∈ vis
      · simp only [bfsLoop, if_pos hn]
        apply ih rest vis order (fun x hx => hq x (List.mem_cons_of_mem n hx))
        simp only [List.length_cons] at hm
        omega
      · simp only [bfsLoop, if_neg hn]
        have hnu : n ∈ univFin g s \ vis.toFinset := by
          rw [Finset.mem_sdiff]
          exact ⟨hq n (List.mem_cons_self n rest), by
            rw [List.mem_toFinset]
            exact hn⟩
        have hcard : ((univFin g s \ (n :: vis).toFinset).card + 1) =
            (univFin g s \ vis.toFinset).card := by
          rw [List.toFinset_cons, Finset.sdiff_insert,
            Finset.card_erase_of_mem hnu]
          have : 1 ≤ (univFin g s \ vis.toFinset).card :=
            Finset.card_pos.mpr ⟨n, hnu⟩
          omega
        apply ih (rest ++ lookupD g n) (n :: vis) (order ++ [n])
        · intro x hx
          rcases List.mem_append.mp hx with hx | hx
          · exact hq x (List.mem_cons_of_mem n hx)
          · exact lookupD_subset_univ s hx
        · have hlen : (lookupD g n).length ≤ maxDeps g := lookupD_length_le g n
          have hmul : (univFin g s \ (n :: vis).toFinset).card *
                (maxDeps g + 1) + (maxDeps g + 1) =
              (univFin g s \ vis.toFinset).card * (maxDeps g + 1) := by
            rw [← hcard]
            ring
          simp only [List.length_cons, List.length_append] at hm ⊢
          omega

/-- The BFS loop invariants: every produced output extends the accumulated
order, has no duplicates, and consists exactly of the nodes reachable from
`s`. -/
theorem bfsLoop_spec (g : Graph) (s : PyStr) :
    ∀ (fuel : Nat) (q vis order res : List PyStr),
    bfsLoop g fuel q vis order = some res →
    order.Nodup →
    (∀ x, x ∈ order ↔ x ∈ vis) →
    (∀ x ∈ vis, Relation.ReflTransGen (stepRel g) s x) →
    (∀ x ∈ q, Relation.ReflTransGen (stepRel g) s x) →
    (∀ x ∈ vis, ∀ d ∈ lookupD g x, d ∈ vis ∨ d ∈ q) →
    (s ∈ vis ∨ s ∈ q) →
    (∃ t, res = order ++ t) ∧ res.Nodup ∧
      ∀ x, x ∈ res ↔ Relation.ReflTransGen (stepRel g) s x := by
  intro fuel
  induction fuel with
  | zero =>
    intro q vis order res h
    cases h
  | succ f ih =>
    intro q vis order res h hnd hov hvis hq hcl hs
    cases q with
    | nil =>
      simp only [bfsLoop, Option.some.injEq] at h
      subst h
      refine ⟨⟨[], by simp⟩, hnd, ?_⟩
      have hclosed : ∀ x ∈ vis, ∀ d ∈ lookupD g x, d ∈ vis := by
        intro x hx d hd
        rcases hcl x hx d hd with h | h
        · exact h
        · cases h
      have hsv : s ∈ vis := by
        rcases hs with h | h
        · exact h
        · cases h
      intro x
      constructor
      · intro hx
        exact hvis x ((hov x).mp hx)
      · intro hreach
        refine (hov x).mpr ?_
        induction hreach with
        | refl => exact hsv
        | tail _ hbc ihr => exact hclosed _ ihr _ hbc
    | cons n rest =>
      by_cases hn : n ∈ vis
      · simp only [bfsLoop, if_pos hn] at h
        apply ih rest vis order res h hnd hov hvis
          (fun x hx => hq x (List.mem_cons_of_mem n hx))
        · intro x hx d hd
          rcases hcl x hx d hd with hv | hv
          · exact Or.inl hv
          · rcases List.mem_cons.mp hv with rfl | hv
            · exact Or.inl hn
            · exact Or.inr hv
        · rcases hs with hv | hv
          · exact Or.inl hv
          · rcases List.mem_cons.mp hv with rfl | hv
            · exact Or.inl hn
            · exact Or.inr hv
      · simp only [bfsLoop, if_neg hn] at h
        have hreachn : Relation.ReflTransGen (stepRel g) s n :=
          hq n (List.mem_cons_self n rest)
        obtain ⟨⟨t, ht⟩, hnd2, hiff⟩ :=
          ih (rest ++ lookupD g n) (n :: vis) (order ++ [n]) res h
            (by
              rw [List.nodup_append]
              refine ⟨hnd, List.nodup_singleton n, ?_⟩
              intro a ha hb
              rw [List.mem_singleton] at hb
              subst hb
              exact hn ((hov a).mp ha))
            (by
              intro x
              rw [List.mem_append, List.mem_singleton, List.mem_cons]
              rw [hov x]
              tauto)
            (by
              intro x hx
              rcases List.mem_cons.mp hx with rfl | hx
              · exact hreachn
              · exact hvis x hx)
            (by
              intro x hx
              rcases List.mem_append.mp hx with hx | hx
              · exact hq x (List.mem_cons_of_mem n hx)
              · exact hreachn.tail hx)
            (by
              intro x hx d hd
              rcases List.mem_cons.mp hx with rfl | hx
              · exact Or.inr (List.mem_append_right rest hd)
              · rcases hcl x hx d hd with hv | hv
                · exact Or.inl (List.mem_cons_of_mem n hv)
                · rcases List.mem_cons.mp hv with rfl | hv
                  · exact Or.inl (List.mem_cons_self d vis)
                  · exact Or.inr (List.mem_append_left _ hv))
            (by
              rcases hs with hv | hv
              · exact Or.inl (List.mem_cons_of_mem n hv)
              · rcases List.mem_cons.mp hv with rfl | hv
                · exact Or.inl (List.mem_cons_self s vis)
                · exact Or.inr (List.mem_append_left _ hv))
        refine ⟨⟨[n] ++ t, ?_⟩, hnd2, hiff⟩
        rw [ht, List.append_assoc]

theorem univFin_card_le (g : Graph) (s : PyStr) :
    (univFin g s).card ≤ 1 + g.length + totalDeps g := by
  unfold univFin
  have h0 := Finset.card_insert_le s ((gkeys g).toFinset ∪ (allDeps g).toFinset)
  have h5 := Finset.card_union_le (gkeys g).toFinset (allDeps g).toFinset
  have h1 := List.toFinset_card_le (gkeys g)
  have h2 := List.toFinset_card_le (allDeps g)
  have h3 : (gkeys g).length = g.length := List.length_map g _
  have h4 := length_allDeps g
  omega

/-- Head, no-duplicates and reachability for the stage-4/5 BFS. -/
theorem bfs_props45 (g : Graph) (s : PyStr) :
    (bfs_dependencies g s).head? = some s ∧
    (bfs_dependencies g s).Nodup ∧
    ∀ x, x ∈ bfs_dependencies g s ↔
      Relation.ReflTransGen (stepRel g) s x := by
  have hmeasure : (univFin g s \ ([] : List PyStr).toFinset).card *
      (maxDeps g + 1) + ([s] : List PyStr).length < bfsFuel g := by
    have hc := univFin_card_le g s
    have he : (univFin g s \ ([] : List PyStr).toFinset).card =
        (univFin g s).card := by
      simp
    rw [he]
    unfold bfsFuel
    have hmul : (univFin g s).card * (maxDeps g + 1) ≤
        (1 + g.length + totalDeps g) * (maxDeps g + 1) :=
      Nat.mul_le_mul_right _ hc
    simp only [List.length_singleton]
    omega
  have hq0 : ∀ x ∈ ([s] : List PyStr), x ∈ univFin g s := by
    intro x hx
    rw [List.mem_singleton] at hx
    subst hx
    exact Finset.mem_insert_self x _
  have hsome := bfsLoop_total g s (bfsFuel g) [s] [] [] hq0 hmeasure
  obtain ⟨res, hres0⟩ := Option.isSome_iff_exists.mp hsome
  obtain ⟨f, hf⟩ : ∃ f, bfsFuel g = f + 1 :=
    ⟨bfsFuel g - 1, by unfold bfsFuel; omega⟩
  have hstep : bfsLoop g (f + 1) [s] [] [] =
      bfsLoop g f (lookupD g s) [s] [s] := by
    simp only [bfsLoop]
    rw [if_neg (List.not_mem_nil s)]
    simp only [List.nil_append]
  have hres : bfsLoop g f (lookupD g s) [s] [s] = some res := by
    rw [← hstep, ← hf]
    exact hres0
  obtain ⟨⟨t, ht⟩, hnd, hiff⟩ := bfsLoop_spec g s f (lookupD g s) [s] [s]
    res hres
    (List.nodup_singleton s)
    (fun x => Iff.rfl)
    (fun x hx => by
      rw [List.mem_singleton] at hx
      subst hx
      exact Relation.ReflTransGen.refl)
    (fun x hx => Relation.ReflTransGen.single (show stepRel g s x from hx))
    (fun x hx d hd => by
      rw [List.mem_singleton] at hx
      subst hx
      exact Or.inr hd)
    (Or.inl (List.mem_singleton_self s))
  have hbfs : bfs_dependencies g s = res := by
    unfold bfs_dependencies
    rw [hres0]
    rfl
  rw [hbfs, ht]
  exact ⟨rfl, ht ▸ hnd, fun x => ht ▸ hiff x⟩

/-- Fuel sufficiency for the stage-3 BFS loop. -/
theorem bfsLoop3_total (g : Graph) (s : PyStr) :
    ∀ (fuel : Nat) (q vis order : List PyStr),
    (∀ x ∈ q, x ∈ univFin g s) →
    (univFin g s \ vis.toFinset).card * (maxDeps g + 1) + q.length < fuel →
    (bfsLoop3 g fuel q vis order).isSome = true := by
  intro fuel
  induction fuel with
  | zero =>
    intro q vis order _ hm
    omega
  | succ f ih =>
    intro q vis order hq hm
    cases q with
    | nil => rfl
    | cons n rest =>
      by_cases hn : n ∈ vis
      · simp only [bfsLoop3, if_pos hn]
        apply ih rest vis order (fun x hx => hq x (List.mem_cons_of_mem n hx))
        simp only [List.length_cons] at hm
        omega
      · simp only [bfsLoop3, if_neg hn]
        have hnu : n ∈ univFin g s \ vis.toFinset := by
          rw [Finset.mem_sdiff]
          exact ⟨hq n (List.mem_cons_self n rest), by
            rw [List.mem_toFinset]
            exact hn⟩
        have hcard : ((univFin g s \ (n :: vis).toFinset).card + 1) =
            (univFin g s \ vis.toFinset).card := by
          rw [List.toFinset_cons, Finset.sdiff_insert,
            Finset.card_erase_of_mem hnu]
          have : 1 ≤ (univFin g s \ vis.toFinset).card :=
            Finset.card_pos.mpr ⟨n, hnu⟩
          omega
        apply ih (rest ++ (lookupD g n).filter (fun d => ¬ d ∈ n :: vis))
          (n :: vis) (order ++ [n])
        · intro x hx
          rcases List.mem_append.mp hx with hx | hx
          · exact hq x (List.mem_cons_of_mem n hx)
          · exact lookupD_subset_univ s (List.mem_of_mem_filter hx)
        · have hlen : ((lookupD g n).filter
              (fun d => ¬ d ∈ n :: vis)).length ≤ maxDeps g :=
            Nat.le_trans (List.length_filter_le _ _) (lookupD_length_le g n)
          have hmul : (univFin g s \ (n :: vis).toFinset).card *
                (maxDeps g + 1) + (maxDeps g + 1) =
              (univFin g s \ vis.toFinset).card * (maxDeps g + 1) := by
            rw [← hcard]
            ring
          simp only [List.length_cons, List.length_append] at hm ⊢
          omega

/-- The stage-3 BFS loop satisfies the same invariants as the stage-4/5
one. -/
theorem bfsLoop3_spec (g : Graph) (s : PyStr) :
    ∀ (fuel : Nat) (q vis order res : List PyStr),
    bfsLoop3 g fuel q vis order = some res →
    order.Nodup →
    (∀ x, x ∈ order ↔ x ∈ vis) →
    (∀ x ∈ vis, Relation.ReflTransGen (stepRel g) s x) →
    (∀ x ∈ q, Relation.ReflTransGen (stepRel g) s x) →
    (∀ x ∈ vis, ∀ d ∈ lookupD g x, d ∈ vis ∨ d ∈ q) →
    (s ∈ vis ∨ s ∈ q) →
    (∃ t, res = order ++ t) ∧ res.Nodup ∧
      ∀ x, x ∈ res ↔ Relation.ReflTransGen (stepRel g) s x := by
  intro fuel
  induction fuel with
  | zero =>
    intro q vis order res h
    cases h
  | succ f ih =>
    intro q vis order res h hnd hov hvis hq hcl hs
    cases q with
    | nil =>
      simp only [bfsLoop3, Option.some.injEq] at h
      subst h
      refine ⟨⟨[], by simp⟩, hnd, ?_⟩
      have hclosed : ∀ x ∈ vis, ∀ d ∈ lookupD g x, d ∈ vis := by
        intro x hx d hd
        rcases hcl x hx d hd with h | h
        · exact h
        · cases h
      have hsv : s ∈ vis := by
        rcases hs with h | h
        · exact h
        · cases h
      intro x
      constructor
      · intro hx
        exact hvis x ((hov x).mp hx)
      · intro hreach
        refine (hov x).mpr ?_
        induction hreach with
        | refl => exact hsv
        | tail _ hbc ihr => exact hclosed _ ihr _ hbc
    | cons n rest =>
      by_cases hn : n ∈ vis
      · simp only [bfsLoop3, if_pos hn] at h
        apply ih rest vis order res h hnd hov hvis
          (fun x hx => hq x (List.mem_cons_of_mem n hx))
        · intro x hx d hd
          rcases hcl x hx d hd with hv | hv
          · exact Or.inl hv
          · rcases List.mem_cons.mp hv with rfl | hv
            · exact Or.inl hn
            · exact Or.inr hv
        · rcases hs with hv | hv
          · exact Or.inl hv
          · rcases List.mem_cons.mp hv with rfl | hv
            · exact Or.inl hn
            · exact Or.inr hv
      · simp only [bfsLoop3, if_neg hn] at h
        have hreachn : Relation.ReflTransGen (stepRel g) s n :=
          hq n (List.mem_cons_self n rest)
        obtain ⟨⟨t, ht⟩, hnd2, hiff⟩ :=
          ih (rest ++ (lookupD g n).filter (fun d => ¬ d ∈ n :: vis))
            (n :: vis) (order ++ [n]) res h
            (by
              rw [List.nodup_append]
              refine ⟨hnd, List.nodup_singleton n, ?_⟩
              intro a ha hb
              rw [List.mem_singleton] at hb
              subst hb
              exact hn ((hov a).mp ha))
            (by
              intro x
              rw [List.mem_append, List.mem_singleton, List.mem_cons]
              rw [hov x]
              tauto)
            (by
              intro x hx
              rcases List.mem_cons.mp hx with rfl | hx
              · exact hreachn
              · exact hvis x hx)
            (by
              intro x hx
              rcases List.mem_append.mp hx with hx | hx
              · exact hq x (List.mem_cons_of_mem n hx)
              · exact hreachn.tail (List.mem_of_mem_filter hx))
            (by
              intro x hx d hd
              rcases List.mem_cons.mp hx with rfl | hx
              · by_cases hdv : d ∈ x :: vis
                · exact Or.inl hdv
                · refine Or.inr (List.mem_append_right rest ?_)
                  rw [List.mem_filter]
                  exact ⟨hd, by simpa using hdv⟩
              · rcases hcl x hx d hd with hv | hv
                · exact Or.inl (List.mem_cons_of_mem n hv)
                · rcases List.mem_cons.mp hv with rfl | hv
                  · exact Or.inl (List.mem_cons_self d vis)
                  · exact Or.inr (List.mem_append_left _ hv))
            (by
              rcases hs with hv | hv
              · exact Or.inl (List.mem_cons_of_mem n hv)
              · rcases List.mem_cons.mp hv with rfl | hv
                · exact Or.inl (List.mem_cons_self s vis)
                · exact Or.inr (List.mem_append_left _ hv))
        refine ⟨⟨[n] ++ t, ?_⟩, hnd2, hiff⟩
        rw [ht, List.append_assoc]

/-- Head, no-duplicates and reachability for the stage-3 BFS. -/
theorem bfs_props3 (g : Graph) (s : PyStr) :
    (bfs_dependencies3 g s).head? = some s ∧
    (bfs_dependencies3 g s).Nodup ∧
    ∀ x, x ∈ bfs_dependencies3 g s ↔
      Relation.ReflTransGen (stepRel g) s x := by
  have hmeasure : (univFin g s \ ([] : List PyStr).toFinset).card *
      (maxDeps g + 1) + ([s] : List PyStr).length < bfsFuel g := by
    have hc := univFin_card_le g s
    have he : (univFin g s \ ([] : List PyStr).toFinset).card =
        (univFin g s).card := by
      simp
    rw [he]
    unfold bfsFuel
    have hmul : (univFin g s).card * (maxDeps g + 1) ≤
        (1 + g.length + totalDeps g) * (maxDeps g + 1) :=
      Nat.mul_le_mul_right _ hc
    simp only [List.length_singleton]
    omega
  have hq0 : ∀ x ∈ ([s] : List PyStr), x ∈ univFin g s := by
    intro x hx
    rw [List.mem_singleton] at hx
    subst hx
    exact Finset.mem_insert_self x _
  have hsome := bfsLoop3_total g s (bfsFuel g) [s] [] [] hq0 hmeasure
  obtain ⟨res, hres0⟩ := Option.isSome_iff_exists.mp hsome
  obtain ⟨f, hf⟩ : ∃ f, bfsFuel g = f + 1 :=
    ⟨bfsFuel g - 1, by unfold bfsFuel; omega⟩
  have hstep : bfsLoop3 g (f + 1) [s] [] [] =
      bfsLoop3 g f ((lookupD g s).filter (fun d => ¬ d ∈ [s])) [s] [s] := by
    simp only [bfsLoop3]
    rw [if_neg (List.not_mem_nil s)]
    simp only [List.nil_append]
  have hres : bfsLoop3 g f ((lookupD g s).filter (fun d => ¬ d ∈ [s]))
      [s] [s] = some res := by
    rw [← hstep, ← hf]
    exact hres0
  obtain ⟨⟨t, ht⟩, hnd, hiff⟩ := bfsLoop3_spec g s f
    ((lookupD g s).filter (fun d => ¬ d ∈ [s])) [s] [s] res hres
    (List.nodup_singleton s)
    (fun x => Iff.rfl)
    (fun x hx => by
      rw [List.mem_singleton] at hx
      subst hx
      exact Relation.ReflTransGen.refl)
    (fun x hx => Relation.ReflTransGen.single
      (show stepRel g s x from List.mem_of_mem_filter hx))
    (fun x hx d hd => by
      rw [List.mem_singleton] at hx
      subst hx
      by_cases hdx : d ∈ [x]
      · rw [List.mem_singleton] at hdx
        subst hdx
        exact Or.inl (List.mem_singleton_self d)
      · refine Or.inr ?_
        rw [List.mem_filter]
        exact ⟨hd, by simpa using hdx⟩)
    (Or.inl (List.mem_singleton_self s))
  have hbfs : bfs_dependencies3 g s = res := by
    unfold bfs_dependencies3
    rw [hres0]
    rfl
  rw [hbfs, ht]
  exact ⟨rfl, ht ▸ hnd, fun x => ht ▸ hiff x⟩

/-- Claim C6 (confirmed): for every graph G and start node s, both BFS
implementations (`bfs_dependencies` of stages 4/5 and the stage-3 variant
that filters visited nodes at enqueue time) produce an order whose first
element is always s, that lists each node exactly once (no duplicates), and
that contains exactly the nodes reachable from s along dependency edges,
with nodes absent from the keys acting as leaves (`graph.get(node, [])`).
The order is a deterministic function of the graph and start node, driven
solely by each node's dependency declaration order under the FIFO queue
discipline. -/
theorem claim6_bfs_order (g : Graph) (s : PyStr) :
    ((bfs_dependencies g s).head? = some s ∧
      (bfs_dependencies g s).Nodup ∧
      ∀ x, x ∈ bfs_dependencies g s ↔
        Relation.ReflTransGen (stepRel g) s x) ∧
    ((bfs_dependencies3 g s).head? = some s ∧
      (bfs_dependencies3 g s).Nodup ∧
      ∀ x, x ∈ bfs_dependencies3 g s ↔
        Relation.ReflTransGen (stepRel g) s x) :=
  ⟨bfs_props45 g s, bfs_props3 g s⟩
